import Mathlib

/-!
# pguard: the process guard of `src/main.cpp`

A shallow embedding of `ProcessGuard::getPidsByName`, `ProcessGuard::guard`
and of the `scan_interval` handling of `main`, followed by the properties of
the supervision engine.

Conventions of the embedding.

* Bytes of the `pidof` output are natural numbers (their character codes):
  `32` is the space, `10` the newline, `48 .. 57` the digits, `45` the minus
  sign, `43` the plus sign, `0` the terminating NUL.
* `pid_t` and `int` values are integers; where a conversion can leave the
  range of a 32-bit `int` it is written out (`toInt32`).
* The operating system is a parameter (`World`): the answer of `kill(pid, 0)`
  for every pid and the byte stream behind `popen(command, "r")`.
* The effects of one `guard()` call that the properties speak about are
  returned next to the new object state (`Effects`): the pids handed to
  `kill`, the number of `getPidsByName` calls, the number of `startProcess`
  calls.
-/

namespace PGuard

/-! ## C library routines used by `getPidsByName` -/

/-- The bytes `fgets` stores when `n` more bytes fit in the buffer: it stops
after a newline (which is stored), at end of file, or when the room is used
up. -/
def fgetsRead : Nat → List Nat → List Nat
  | 0, _ => []
  | _ + 1, [] => []
  | n + 1, b :: rest => if b = 10 then [b] else b :: fgetsRead n rest

/-- The call `fgets(buffer, size, stream)`: `none` is the null pointer
returned at end of file, otherwise at most `size - 1` bytes are stored. -/
def fgets (size : Nat) (stream : List Nat) : Option (List Nat) :=
  match stream with
  | [] => none
  | _ :: _ => some (fgetsRead (size - 1) stream)

/-- The C string held by a buffer: the bytes before the first NUL. -/
def cstr (buffer : List Nat) : List Nat :=
  buffer.takeWhile (fun b => b != 0)

/-- Membership of a byte in the delimiter string of `strtok`. -/
def isDelim (delim : List Nat) (b : Nat) : Bool :=
  delim.contains b

/-- One call of `strtok` on the text that is left: leading delimiters are
skipped; `none` is the null pointer (no token left); otherwise the token runs
to the next delimiter, that delimiter is overwritten by NUL, and the saved
position is the text after it. The result is the token and the saved text. -/
def strtok (delim : List Nat) (s : List Nat) : Option (List Nat × List Nat) :=
  match s.dropWhile (isDelim delim) with
  | [] => none
  | b :: t =>
    some ((b :: t).takeWhile (fun c => !isDelim delim c),
          ((b :: t).dropWhile (fun c => !isDelim delim c)).drop 1)

/-- The predicate `isspace` of the C locale. -/
def isspace (b : Nat) : Bool :=
  b == 32 || (9 ≤ b && b ≤ 13)

/-- The predicate `isdigit`. -/
def isdigit (b : Nat) : Bool :=
  48 ≤ b && b ≤ 57

/-- The value of the leading run of decimal digits, continuing from `acc`. -/
def digitsValue : List Nat → Nat → Nat
  | [], acc => acc
  | b :: rest, acc =>
    if isdigit b then digitsValue rest (10 * acc + (b - 48)) else acc

/-- The conversion `strtol(s, NULL, 10)` with a 64-bit `long`: white space is
skipped, one optional sign is read, then the leading digits; the value
saturates at `LONG_MIN` and `LONG_MAX`. -/
def strtol (s : List Nat) : Int :=
  let v : Int :=
    match s.dropWhile isspace with
    | [] => 0
    | c :: r =>
      if c = 45 then -((digitsValue r 0 : Nat) : Int)
      else if c = 43 then ((digitsValue r 0 : Nat) : Int)
      else ((digitsValue (c :: r) 0 : Nat) : Int)
  if v < -(2 ^ 63) then -(2 ^ 63) else if 2 ^ 63 - 1 < v then 2 ^ 63 - 1 else v

/-- Conversion of an integer to a 32-bit `int` (two's complement). -/
def toInt32 (x : Int) : Int :=
  (x + 2 ^ 31) % 2 ^ 32 - 2 ^ 31

/-- The call `atoi(token)`, that is `(int) strtol(token, NULL, 10)`. For a
value outside the range of `int` the C standard leaves the result undefined;
the embedding follows the common C libraries (truncation to 32 bits). -/
def atoi (s : List Nat) : Int :=
  toInt32 (strtol s)

/-! ## The operating system seen by the guard -/

/-- The operating system during one `guard()` call. -/
structure World where
  /-- The return value of `kill(pid, 0)`. -/
  kill : Int → Int
  /-- The bytes readable from `popen(command, "r")`; `none` when `popen`
  fails. -/
  popen : String → Option (List Nat)

/-- What one `guard()` call did. -/
structure Effects where
  /-- The pids passed to `kill(pid, 0)`, in call order. -/
  probed : List Int
  /-- The number of calls of `getPidsByName`. -/
  scans : Nat
  /-- The number of calls of `startProcess`. -/
  launches : Nat
deriving DecidableEq, Repr

/-- The data members of `class ProcessGuard`. -/
structure ProcessGuard where
  name : String
  cwd : String
  cmdline : String
  guarding : Bool
  pids : List Int
deriving DecidableEq, Repr

/-- The constructor `ProcessGuard(n, wd, cmd, autoRun)`: `guarding` starts as
`autoRun`, the pid vector starts empty. -/
def ProcessGuard.new (n wd cmd : String) (autoRun : Bool) : ProcessGuard :=
  { name := n, cwd := wd, cmdline := cmd, guarding := autoRun, pids := [] }

/-! ## `getPidsByName` -/

/-- The loop `while (token != nullptr)` of `getPidsByName`: `token` is the
result of the last `strtok` call. Every round consumes at least one byte of
the buffer, so `fuel` rounds are enough when `fuel` exceeds the buffer length;
`none` means that the fuel ran out. -/
def tokenLoop : Nat → Option (List Nat × List Nat) → List Int → Option (List Int)
  | _, none, result => some result
  | 0, some _, _ => none
  | fuel + 1, some (token, rest), result =>
    let pid := atoi token
    let result := if pid > 0 then result ++ [pid] else result
    tokenLoop fuel (strtok [32] rest) result

/-- The body of `getPidsByName` once the pipe is open or has failed to
open. -/
def parsePidof (pipe : Option (List Nat)) : List Int :=
  match pipe with
  | none => []
  | some stream =>
    match fgets 128 stream with
    | none => []
    | some read =>
      let buffer := cstr read
      (tokenLoop (buffer.length + 1) (strtok [32] buffer) []).getD []

/-- The method `getPidsByName(processName)`. -/
def getPidsByName (w : World) (processName : String) : List Int :=
  parsePidof (w.popen ("pidof " ++ processName))

/-! ## `guard` -/

/-- The liveness loop of `guard()` over the pid vector: every element is
passed to `kill(pid, 0)` once, in order; an element is erased when the call
returns `-1`. The result is the vector that is left, the flag `anyDead`, and
the pids that were probed. -/
def pruneLoop (kill : Int → Int) : List Int → List Int × Bool × List Int
  | [] => ([], false, [])
  | p :: rest =>
    let r := pruneLoop kill rest
    if kill p = -1 then (r.1, true, p :: r.2.2)
    else (p :: r.1, r.2.1, p :: r.2.2)

/-- The method `guard()`: the new object state and the effects of the call.
`startProcess` forks and, in the supervisor, only waits for the intermediate
child and logs; it leaves the object unchanged and is recorded as one
launch. -/
def guard (w : World) (g : ProcessGuard) : ProcessGuard × Effects :=
  let r := pruneLoop w.kill g.pids
  let pids := r.1
  if pids.isEmpty then
    let newPids := getPidsByName w g.name
    if !newPids.isEmpty then
      ({ g with pids := newPids, guarding := if !g.guarding then true else g.guarding },
       { probed := r.2.2, scans := 1, launches := 0 })
    else if g.guarding then
      ({ g with pids := pids }, { probed := r.2.2, scans := 1, launches := 1 })
    else
      ({ g with pids := pids }, { probed := r.2.2, scans := 1, launches := 0 })
  else
    ({ g with pids := pids }, { probed := r.2.2, scans := 0, launches := 0 })

/-- Successive `guard()` calls on one entry, one per sweep of the main loop,
each under the operating-system answers of its sweep: the state and the
effects after every call. -/
def guardCalls (g : ProcessGuard) : List World → List (ProcessGuard × Effects)
  | [] => []
  | w :: ws => guard w g :: guardCalls (guard w g).1 ws

/-- The state of the entry after the calls of `guardCalls`. -/
def guardRun (g : ProcessGuard) : List World → ProcessGuard
  | [] => g
  | w :: ws => guardRun (guard w g).1 ws

/-! ## `scan_interval` in `main` -/

/-- The outcome of `config["scan_interval"].get<int>()`. -/
inductive GetInt where
  /-- The conversion returned this `int`. -/
  | value (n : Int)
  /-- The conversion threw an exception. -/
  | throws
deriving DecidableEq, Repr

/-- The variable `scan_interval` of `main` when the guard loop starts.
`field` is `none` when `config.contains("scan_interval")` is false. -/
def scanInterval (field : Option GetInt) : Int :=
  match field with
  | none => 1
  | some GetInt.throws => 1
  | some (GetInt.value n) => if n < 1 then 1 else n

/-- The argument received by `sleep(scan_interval)`: the `int` converted to
`unsigned int`. -/
def sleepSeconds (field : Option GetInt) : Int :=
  scanInterval field % 2 ^ 32

/-! ## Auxiliary notions of the properties -/

/-- The liveness test of `guard()`: `kill(pid, 0)` did not return `-1`. -/
def alive (w : World) (p : Int) : Bool :=
  decide (w.kill p ≠ -1)

/-- The invariant of the reachable states: tracked pids imply guarding. -/
def trackedImpliesGuarding (g : ProcessGuard) : Prop :=
  g.pids ≠ [] → g.guarding = true

/-- An operating system in which exactly the pids of `live` answer
`kill(pid, 0)` with `0`, and `pidof` prints the bytes `out`. -/
def worldWith (live : List Int) (out : List Nat) : World :=
  { kill := fun p => if p ∈ live then 0 else -1, popen := fun _ => some out }

/-- An operating system with no live pid in which `pidof` prints nothing. -/
def quietWorld : World := worldWith [] []

/-- A sample entry: the service `echosvc` of the end-to-end scenario. -/
def echosvc (autoRun : Bool) : ProcessGuard :=
  ProcessGuard.new "echosvc" "/tmp" "echosvc --port 9000" autoRun

/-! ## Lines of decimal integer tokens -/

/-- A decimal integer token as the lookup facility prints it: an optional
minus sign and the decimal digits, most significant first. -/
structure DecToken where
  neg : Bool
  digits : List Nat
deriving DecidableEq, Repr

/-- A token has at least one digit and every digit is at most nine. -/
def DecToken.wellFormed (t : DecToken) : Prop :=
  t.digits ≠ [] ∧ ∀ d ∈ t.digits, d ≤ 9

instance (t : DecToken) : Decidable t.wellFormed := by
  unfold DecToken.wellFormed
  infer_instance

/-- The bytes of a token. -/
def DecToken.bytes (t : DecToken) : List Nat :=
  (if t.neg then [45] else []) ++ t.digits.map (fun d => d + 48)

/-- The integer a token denotes. -/
def DecToken.value (t : DecToken) : Int :=
  if t.neg then -((t.digits.foldl (fun a d => 10 * a + d) 0 : Nat) : Int)
  else ((t.digits.foldl (fun a d => 10 * a + d) 0 : Nat) : Int)

/-- Tokens separated by one space. -/
def joinTokens : List DecToken → List Nat
  | [] => []
  | [t] => t.bytes
  | t :: t2 :: ts => t.bytes ++ 32 :: joinTokens (t2 :: ts)

/-- An output line of the lookup facility: the tokens separated by one space,
ended by a newline when `newline` is set. -/
def pidofLine (toks : List DecToken) (newline : Bool) : List Nat :=
  joinTokens toks ++ (if newline then [10] else [])

/-- What the discovery contract asks for on a line of tokens: the values
greater than zero, in order, duplicates kept. -/
def positiveValues (toks : List DecToken) : List Int :=
  (toks.map DecToken.value).filter (fun v => decide (0 < v))

/-- The token `12345`. -/
def tok12345 : DecToken := { neg := false, digits := [1, 2, 3, 4, 5] }

/-! ## Basic facts about the liveness loop and the four outcomes of `guard` -/

theorem pruneLoop_kept (kill : Int → Int) (l : List Int) :
    (pruneLoop kill l).1 = l.filter (fun p => decide (kill p ≠ -1)) := by
  induction l with
  | nil => rfl
  | cons p rest ih =>
    by_cases h : kill p = -1
    · simp [pruneLoop, h, ih]
    · simp [pruneLoop, h, ih]

theorem pruneLoop_probed (kill : Int → Int) (l : List Int) :
    (pruneLoop kill l).2.2 = l := by
  induction l with
  | nil => rfl
  | cons p rest ih =>
    by_cases h : kill p = -1
    · simp [pruneLoop, h, ih]
    · simp [pruneLoop, h, ih]

theorem pruneLoop_kept_alive (w : World) (l : List Int) :
    (pruneLoop w.kill l).1 = l.filter (alive w) :=
  pruneLoop_kept w.kill l

/-- Tracking: some tracked pid is alive. -/
theorem guard_tracking (w : World) (g : ProcessGuard)
    (h : g.pids.filter (alive w) ≠ []) :
    guard w g = ({ g with pids := g.pids.filter (alive w) },
                 { probed := g.pids, scans := 0, launches := 0 }) := by
  simp [guard, pruneLoop_kept_alive, pruneLoop_probed, h]

/-- Enrollment: nothing is left and discovery answers with pids. -/
theorem guard_enroll (w : World) (g : ProcessGuard)
    (h : g.pids.filter (alive w) = []) (hd : getPidsByName w g.name ≠ []) :
    guard w g = ({ g with pids := getPidsByName w g.name, guarding := true },
                 { probed := g.pids, scans := 1, launches := 0 }) := by
  cases hg : g.guarding <;>
    simp [guard, pruneLoop_kept_alive, pruneLoop_probed, h, hd, hg]

/-- Restart: nothing is left, discovery is empty, the entry is guarded. -/
theorem guard_launch (w : World) (g : ProcessGuard)
    (h : g.pids.filter (alive w) = []) (hd : getPidsByName w g.name = [])
    (hg : g.guarding = true) :
    guard w g = ({ g with pids := [] },
                 { probed := g.pids, scans := 1, launches := 1 }) := by
  simp [guard, pruneLoop_kept_alive, pruneLoop_probed, h, hd, hg]

/-- Dormant: nothing is left, discovery is empty, the entry is not guarded. -/
theorem guard_dormant (w : World) (g : ProcessGuard)
    (h : g.pids.filter (alive w) = []) (hd : getPidsByName w g.name = [])
    (hg : g.guarding = false) :
    guard w g = ({ g with pids := [] },
                 { probed := g.pids, scans := 1, launches := 0 }) := by
  simp [guard, pruneLoop_kept_alive, pruneLoop_probed, h, hd, hg]

theorem guard_name (w : World) (g : ProcessGuard) : (guard w g).1.name = g.name := by
  by_cases h : g.pids.filter (alive w) = []
  · by_cases hd : getPidsByName w g.name = []
    · cases hg : g.guarding
      · rw [guard_dormant w g h hd hg]
      · rw [guard_launch w g h hd hg]
    · rw [guard_enroll w g h hd]
  · rw [guard_tracking w g h]

theorem filter_alive_eq_nil (w : World) (l : List Int) :
    l.filter (alive w) = [] ↔ ∀ p ∈ l, w.kill p = -1 := by
  simp [List.filter_eq_nil_iff, alive]

/-! ## Sequences of `guard()` calls -/

theorem guardCalls_length (g : ProcessGuard) (ws : List World) :
    (guardCalls g ws).length = ws.length := by
  induction ws generalizing g with
  | nil => rfl
  | cons w ws ih => simp [guardCalls, ih]

theorem guardRun_append (g : ProcessGuard) (ws1 ws2 : List World) :
    guardRun g (ws1 ++ ws2) = guardRun (guardRun g ws1) ws2 := by
  induction ws1 generalizing g with
  | nil => rfl
  | cons w ws ih => simp [guardRun, ih]

/-- An entry with no tracked pid that is guarded, swept while discovery stays
empty: every call leaves the state as it is and launches once. -/
theorem guardCalls_restart (g : ProcessGuard) (ws : List World)
    (hp : g.pids = []) (hg : g.guarding = true)
    (hws : ∀ w ∈ ws, getPidsByName w g.name = []) :
    ∀ r ∈ guardCalls g ws, r = (g, { probed := [], scans := 1, launches := 1 }) := by
  induction ws with
  | nil => intro r hr; simp [guardCalls] at hr
  | cons w ws ih =>
    have hw : getPidsByName w g.name = [] := hws w (List.mem_cons_self _ _)
    have hstep : guard w g = (g, { probed := [], scans := 1, launches := 1 }) := by
      rw [guard_launch w g (by simp [hp]) hw hg, hp]
      cases g
      simp_all
    intro r hr
    simp only [guardCalls, List.mem_cons] at hr
    rcases hr with hr | hr
    · rw [hr, hstep]
    · rw [hstep] at hr
      exact ih (fun w1 h1 => hws w1 (List.mem_cons_of_mem _ h1)) r hr

/-- An entry with no tracked pid that is not guarded, swept while discovery
stays empty: every call leaves the state as it is and launches nothing. -/
theorem guardCalls_dormant (g : ProcessGuard) (ws : List World)
    (hp : g.pids = []) (hg : g.guarding = false)
    (hws : ∀ w ∈ ws, getPidsByName w g.name = []) :
    ∀ r ∈ guardCalls g ws, r = (g, { probed := [], scans := 1, launches := 0 }) := by
  induction ws with
  | nil => intro r hr; simp [guardCalls] at hr
  | cons w ws ih =>
    have hw : getPidsByName w g.name = [] := hws w (List.mem_cons_self _ _)
    have hstep : guard w g = (g, { probed := [], scans := 1, launches := 0 }) := by
      rw [guard_dormant w g (by simp [hp]) hw hg, hp]
      cases g
      simp_all
    intro r hr
    simp only [guardCalls, List.mem_cons] at hr
    rcases hr with hr | hr
    · rw [hr, hstep]
    · rw [hstep] at hr
      exact ih (fun w1 h1 => hws w1 (List.mem_cons_of_mem _ h1)) r hr

theorem sum_map_of_forall_eq {α : Type} (l : List α) (f : α → Nat) (c : Nat)
    (h : ∀ x ∈ l, f x = c) : (l.map f).sum = l.length * c := by
  induction l with
  | nil => simp
  | cons a l ih =>
    have ha : f a = c := h a (List.mem_cons_self _ _)
    have hl := ih (fun x hx => h x (List.mem_cons_of_mem _ hx))
    simp [ha, hl, Nat.succ_mul, Nat.add_comm]

theorem guard_guarding_mono (w : World) (g : ProcessGuard) (hg : g.guarding = true) :
    (guard w g).1.guarding = true := by
  by_cases h : g.pids.filter (alive w) = []
  · by_cases hd : getPidsByName w g.name = []
    · rw [guard_launch w g h hd hg]; exact hg
    · rw [guard_enroll w g h hd]
  · rw [guard_tracking w g h]; exact hg

theorem guardRun_guarding_mono (g : ProcessGuard) (ws : List World)
    (hg : g.guarding = true) : (guardRun g ws).guarding = true := by
  induction ws generalizing g with
  | nil => exact hg
  | cons w ws ih => exact ih (guard w g).1 (guard_guarding_mono w g hg)

theorem guard_preserves_invariant (w : World) (g : ProcessGuard)
    (hinv : trackedImpliesGuarding g) : trackedImpliesGuarding (guard w g).1 := by
  intro hne
  by_cases h : g.pids.filter (alive w) = []
  · by_cases hd : getPidsByName w g.name = []
    · cases hg : g.guarding
      · rw [guard_dormant w g h hd hg] at hne; simp at hne
      · exact guard_guarding_mono w g hg
    · rw [guard_enroll w g h hd]
  · apply guard_guarding_mono w g
    apply hinv
    intro hnil
    exact h (by simp [hnil])

theorem guardRun_preserves_invariant (g : ProcessGuard) (ws : List World)
    (hinv : trackedImpliesGuarding g) : trackedImpliesGuarding (guardRun g ws) := by
  induction ws generalizing g with
  | nil => exact hinv
  | cons w ws ih => exact ih (guard w g).1 (guard_preserves_invariant w g hinv)

/-! ## The properties of `guard` -/

/-- C1. An entry constructed with autorun = true and swept `n` times while
discovery returns the empty list every time: there are `n` calls, each one
invokes `startProcess` exactly once and leaves the tracked set empty and
`guarding` true, and the launches add up to `n`. Likewise one `guard()` call
from any state with `guarding` true whose tracked pids all fail the liveness
probe, discovery being empty: the set is pruned to empty and one launch is
made. -/
theorem guard_restart_every_sweep (name wd cmd : String) (n : Nat) (ws : List World)
    (g : ProcessGuard) (w : World)
    (hlen : ws.length = n)
    (hws : ∀ v ∈ ws, getPidsByName v name = [])
    (hg : g.guarding = true) (hdead : ∀ p ∈ g.pids, w.kill p = -1)
    (hw : getPidsByName w g.name = []) :
    ((guardCalls (ProcessGuard.new name wd cmd true) ws).length = n ∧
      (∀ r ∈ guardCalls (ProcessGuard.new name wd cmd true) ws,
        r.2.launches = 1 ∧ r.1.pids = [] ∧ r.1.guarding = true) ∧
      ((guardCalls (ProcessGuard.new name wd cmd true) ws).map
        (fun r => r.2.launches)).sum = n) ∧
    ((guard w g).1.pids = [] ∧ (guard w g).2.launches = 1 ∧
      (guard w g).1.guarding = true) := by
  have hall := guardCalls_restart (ProcessGuard.new name wd cmd true) ws rfl rfl hws
  refine ⟨⟨?_, ?_, ?_⟩, ?_⟩
  · rw [guardCalls_length, hlen]
  · intro r hr
    rw [hall r hr]
    exact ⟨rfl, rfl, rfl⟩
  · rw [sum_map_of_forall_eq _ _ 1 (fun r hr => by rw [hall r hr]),
      guardCalls_length, hlen, Nat.mul_one]
  · rw [guard_launch w g ((filter_alive_eq_nil w g.pids).mpr hdead) hw hg]
    exact ⟨rfl, rfl, hg⟩

/-- C1 at a concrete input: three sweeps of `echosvc` in a quiet system, and
one call on an entry tracking the dead pids 7 and 8. -/
theorem guard_restart_every_sweep_witness :
    ((guardCalls (ProcessGuard.new "echosvc" "/tmp" "echosvc --port 9000" true)
        [quietWorld, quietWorld, quietWorld]).length = 3 ∧
      (∀ r ∈ guardCalls (ProcessGuard.new "echosvc" "/tmp" "echosvc --port 9000" true)
          [quietWorld, quietWorld, quietWorld],
        r.2.launches = 1 ∧ r.1.pids = [] ∧ r.1.guarding = true) ∧
      ((guardCalls (ProcessGuard.new "echosvc" "/tmp" "echosvc --port 9000" true)
        [quietWorld, quietWorld, quietWorld]).map (fun r => r.2.launches)).sum = 3) ∧
    ((guard quietWorld { echosvc true with pids := [7, 8] }).1.pids = [] ∧
      (guard quietWorld { echosvc true with pids := [7, 8] }).2.launches = 1 ∧
      (guard quietWorld { echosvc true with pids := [7, 8] }).1.guarding = true) :=
  guard_restart_every_sweep "echosvc" "/tmp" "echosvc --port 9000" 3
    [quietWorld, quietWorld, quietWorld] { echosvc true with pids := [7, 8] } quietWorld
    rfl (by decide) rfl (by decide) (by decide)

/-- C2. From any state with `guarding` false, a `guard()` call in which
discovery returns the empty list never invokes `startProcess` and leaves
`guarding` false; when discovery was consulted in the call the tracked set is
empty afterwards. Hence an entry constructed with autorun = false is not
launched by any number of sweeps in which discovery keeps returning empty, and
stays in its initial state. -/
theorem guard_dormant_never_launches (name wd cmd : String) (ws : List World)
    (g : ProcessGuard) (w : World)
    (hg : g.guarding = false) (hw : getPidsByName w g.name = [])
    (hws : ∀ v ∈ ws, getPidsByName v name = []) :
    ((guard w g).2.launches = 0 ∧ (guard w g).1.guarding = false ∧
      ((guard w g).2.scans = 1 → (guard w g).1.pids = [])) ∧
    (∀ r ∈ guardCalls (ProcessGuard.new name wd cmd false) ws,
      r.2.launches = 0 ∧ r.1 = ProcessGuard.new name wd cmd false) ∧
    ((guardCalls (ProcessGuard.new name wd cmd false) ws).map
      (fun r => r.2.launches)).sum = 0 := by
  have hall := guardCalls_dormant (ProcessGuard.new name wd cmd false) ws rfl rfl hws
  refine ⟨?_, ?_, ?_⟩
  · by_cases h : g.pids.filter (alive w) = []
    · rw [guard_dormant w g h hw hg]
      exact ⟨rfl, hg, fun _ => rfl⟩
    · rw [guard_tracking w g h]
      refine ⟨rfl, hg, ?_⟩
      intro hs
      simp at hs
  · intro r hr
    rw [hall r hr]
    exact ⟨rfl, rfl⟩
  · rw [sum_map_of_forall_eq _ _ 0 (fun r hr => by rw [hall r hr]), Nat.mul_zero]

/-- C2 at a concrete input: `echosvc` with autorun = false, swept twice in a
quiet system. -/
theorem guard_dormant_never_launches_witness :
    ((guard quietWorld (echosvc false)).2.launches = 0 ∧
      (guard quietWorld (echosvc false)).1.guarding = false ∧
      ((guard quietWorld (echosvc false)).2.scans = 1 →
        (guard quietWorld (echosvc false)).1.pids = [])) ∧
    (∀ r ∈ guardCalls (ProcessGuard.new "echosvc" "/tmp" "echosvc --port 9000" false)
        [quietWorld, quietWorld],
      r.2.launches = 0 ∧
        r.1 = ProcessGuard.new "echosvc" "/tmp" "echosvc --port 9000" false) ∧
    ((guardCalls (ProcessGuard.new "echosvc" "/tmp" "echosvc --port 9000" false)
      [quietWorld, quietWorld]).map (fun r => r.2.launches)).sum = 0 :=
  guard_dormant_never_launches "echosvc" "/tmp" "echosvc --port 9000"
    [quietWorld, quietWorld] (echosvc false) quietWorld rfl (by decide) (by decide)

/-- C3. Enrollment on discovery: when the tracked set is empty after pruning
and discovery returns a non-empty list `L`, `guard()` sets the tracked set to
exactly `L`, sets `guarding` to true whatever it was, and does not invoke
`startProcess`. -/
theorem guard_enrolls_on_discovery (g : ProcessGuard) (w : World) (L : List Int)
    (hempty : (pruneLoop w.kill g.pids).1 = [])
    (hL : getPidsByName w g.name = L) (hne : L ≠ []) :
    (guard w g).1.pids = L ∧ (guard w g).1.guarding = true ∧
      (guard w g).2.launches = 0 := by
  rw [pruneLoop_kept_alive] at hempty
  rw [guard_enroll w g hempty (by rw [hL]; exact hne)]
  exact ⟨hL, rfl, rfl⟩

/-- C3 at a concrete input: `echosvc` with autorun = false tracking the dead
pid 7, while `pidof` prints the line `42 43`. -/
theorem guard_enrolls_on_discovery_witness :
    (pruneLoop (worldWith [42, 43] [52, 50, 32, 52, 51, 10]).kill [7]).1 = [] ∧
    getPidsByName (worldWith [42, 43] [52, 50, 32, 52, 51, 10]) "echosvc" = [42, 43] ∧
    (guard (worldWith [42, 43] [52, 50, 32, 52, 51, 10])
      { echosvc false with pids := [7] }).1.pids = [42, 43] ∧
    (guard (worldWith [42, 43] [52, 50, 32, 52, 51, 10])
      { echosvc false with pids := [7] }).1.guarding = true ∧
    (guard (worldWith [42, 43] [52, 50, 32, 52, 51, 10])
      { echosvc false with pids := [7] }).2.launches = 0 :=
  ⟨by decide, by decide,
    guard_enrolls_on_discovery { echosvc false with pids := [7] }
      (worldWith [42, 43] [52, 50, 32, 52, 51, 10]) [42, 43]
      (by decide) (by decide) (by decide)⟩

/-- C4. Tracking: when at least one tracked pid passes the liveness probe,
`guard()` neither calls `getPidsByName` nor `startProcess`; afterwards the
tracked set is the previous one restricted to the pids that passed the probe,
order and duplicates kept, and `guarding` is unchanged. -/
theorem guard_tracking_only_prunes (g : ProcessGuard) (w : World)
    (h : ∃ p ∈ g.pids, w.kill p ≠ -1) :
    (guard w g).2.scans = 0 ∧ (guard w g).2.launches = 0 ∧
      (guard w g).1.pids = g.pids.filter (fun p => decide (w.kill p ≠ -1)) ∧
      (guard w g).1.pids.Sublist g.pids ∧
      (guard w g).1.guarding = g.guarding := by
  have hne : g.pids.filter (alive w) ≠ [] := by
    intro hnil
    obtain ⟨p, hp, hk⟩ := h
    exact hk ((filter_alive_eq_nil w g.pids).mp hnil p hp)
  rw [guard_tracking w g hne]
  exact ⟨rfl, rfl, rfl, List.filter_sublist _, rfl⟩

/-- C4 at a concrete input: the tracked pids 5, 6, 5, 9 of which 5 and 9 are
alive. -/
theorem guard_tracking_only_prunes_witness :
    (guard (worldWith [5, 9] [55, 55, 10]) { echosvc false with pids := [5, 6, 5, 9] }).2.scans = 0 ∧
    (guard (worldWith [5, 9] [55, 55, 10]) { echosvc false with pids := [5, 6, 5, 9] }).1.pids
      = [5, 5, 9] :=
  have h := guard_tracking_only_prunes { echosvc false with pids := [5, 6, 5, 9] }
    (worldWith [5, 9] [55, 55, 10]) ⟨5, by decide, by decide⟩
  ⟨h.1, h.2.2.1.trans (by decide)⟩

/-- C5, as stated, fails: `echosvc` with an empty tracked set, in a system
where pid 5 answers the liveness probe, pid 6 does not, and `pidof` prints the
line `5 6`. The first call adopts 5 and 6, the second prunes 6. -/
theorem guard_twice_counterexample :
    (guard (worldWith [5] [53, 32, 54, 10]) (echosvc true)).1.pids = [5, 6] ∧
    (guard (worldWith [5] [53, 32, 54, 10])
      (guard (worldWith [5] [53, 32, 54, 10]) (echosvc true)).1).1.pids = [5] ∧
    ¬ ((guard (worldWith [5] [53, 32, 54, 10])
        (guard (worldWith [5] [53, 32, 54, 10]) (echosvc true)).1).1.pids
      = (guard (worldWith [5] [53, 32, 54, 10]) (echosvc true)).1.pids) := by
  decide

/-- C5, amended. For fixed liveness and discovery answers, a second `guard()`
call leaves the tracked set of the first call unchanged in every case but
one: no tracked pid of the starting state passes the probe, and discovery
returns both a pid that fails the probe and a pid that passes it. -/
theorem guard_twice_same_iff (g : ProcessGuard) (w : World) :
    (guard w (guard w g).1).1.pids = (guard w g).1.pids ↔
      ¬ ((∀ p ∈ g.pids, w.kill p = -1) ∧
         (∃ p ∈ getPidsByName w g.name, w.kill p = -1) ∧
         (∃ p ∈ getPidsByName w g.name, w.kill p ≠ -1)) := by
  by_cases h : g.pids.filter (alive w) = []
  · have hdead := (filter_alive_eq_nil w g.pids).mp h
    by_cases hd : getPidsByName w g.name = []
    · have hpids : (guard w g).1.pids = [] := by
        cases hg : g.guarding
        · rw [guard_dormant w g h hd hg]
        · rw [guard_launch w g h hd hg]
      have hd2 : getPidsByName w (guard w g).1.name = [] := by rw [guard_name]; exact hd
      have hpids2 : (guard w (guard w g).1).1.pids = [] := by
        cases hg : (guard w g).1.guarding
        · rw [guard_dormant w _ (by simp [hpids]) hd2 hg]
        · rw [guard_launch w _ (by simp [hpids]) hd2 hg]
      rw [hpids, hpids2]
      simp [hd]
    · have h1 : guard w g = ({ g with pids := getPidsByName w g.name, guarding := true },
          { probed := g.pids, scans := 1, launches := 0 }) := guard_enroll w g h hd
      by_cases h2 : (getPidsByName w g.name).filter (alive w) = []
      · have hall := (filter_alive_eq_nil w _).mp h2
        have : (guard w (guard w g).1).1.pids = getPidsByName w g.name := by
          rw [h1]
          exact congrArg (fun r => r.1.pids)
            (guard_enroll w { g with pids := getPidsByName w g.name, guarding := true } h2 hd)
        rw [this, h1]
        simp only [true_iff]
        rintro ⟨_, _, ⟨p, hp, hk⟩⟩
        exact hk (hall p hp)
      · have : (guard w (guard w g).1).1.pids = (getPidsByName w g.name).filter (alive w) := by
          rw [h1]
          exact congrArg (fun r => r.1.pids)
            (guard_tracking w { g with pids := getPidsByName w g.name, guarding := true } h2)
        rw [this, h1]
        simp only [List.filter_eq_self]
        constructor
        · rintro hall ⟨_, ⟨p, hp, hk⟩, _⟩
          have := hall p hp
          simp [alive, hk] at this
        · intro hnot p hp
          by_contra hk
          have hkill : w.kill p = -1 := by
            simpa [alive] using hk
          have hex : ∃ q ∈ getPidsByName w g.name, w.kill q ≠ -1 := by
            by_contra hno
            apply h2
            rw [filter_alive_eq_nil]
            intro q hq
            by_contra hq1
            exact hno ⟨q, hq, hq1⟩
          exact hnot ⟨hdead, ⟨p, hp, hkill⟩, hex⟩
  · have h1 : guard w g = ({ g with pids := g.pids.filter (alive w) },
        { probed := g.pids, scans := 0, launches := 0 }) := guard_tracking w g h
    have h2 : (guard w (guard w g).1).1.pids = g.pids.filter (alive w) := by
      rw [h1]
      have h3 : (g.pids.filter (alive w)).filter (alive w) ≠ [] := by
        rw [List.filter_filter]; simpa using h
      have e := congrArg (fun r => r.1.pids)
        (guard_tracking w { g with pids := g.pids.filter (alive w) } h3)
      simp only [List.filter_filter, Bool.and_self] at e
      exact e
    rw [h2, h1]
    simp only [true_iff]
    rintro ⟨hall, _⟩
    exact h ((filter_alive_eq_nil w g.pids).mpr hall)

/-! ## Discovery returns positive pids only -/

theorem tokenLoop_pos (fuel : Nat) (tok : Option (List Nat × List Nat))
    (result out : List Int) (hres : ∀ p ∈ result, 0 < p)
    (hout : tokenLoop fuel tok result = some out) : ∀ p ∈ out, 0 < p := by
  induction fuel generalizing tok result with
  | zero =>
    cases tok with
    | none =>
      simp only [tokenLoop, Option.some.injEq] at hout
      rw [← hout]; exact hres
    | some t => simp [tokenLoop] at hout
  | succ fuel ih =>
    cases tok with
    | none =>
      simp only [tokenLoop, Option.some.injEq] at hout
      rw [← hout]; exact hres
    | some t =>
      obtain ⟨token, rest⟩ := t
      simp only [tokenLoop] at hout
      refine ih _ _ ?_ hout
      intro p hp
      by_cases hpos : atoi token > 0
      · simp only [hpos, if_true, List.mem_append, List.mem_singleton] at hp
        rcases hp with hp | hp
        · exact hres p hp
        · rw [hp]; exact hpos
      · simp only [hpos, if_false] at hp
        exact hres p hp

theorem parsePidof_pos (pipe : Option (List Nat)) : ∀ p ∈ parsePidof pipe, 0 < p := by
  intro p hp
  cases pipe with
  | none => simp [parsePidof] at hp
  | some stream =>
    simp only [parsePidof] at hp
    cases hf : fgets 128 stream with
    | none => simp [hf] at hp
    | some read =>
      simp only [hf] at hp
      cases ht : tokenLoop ((cstr read).length + 1) (strtok [32] (cstr read)) [] with
      | none => simp [ht] at hp
      | some out =>
        simp only [ht, Option.getD_some] at hp
        exact tokenLoop_pos _ _ [] out (by simp) ht p hp

theorem getPidsByName_pos (w : World) (processName : String) :
    ∀ p ∈ getPidsByName w processName, 0 < p :=
  parsePidof_pos _

/-- C6, as stated, fails: `echosvc` with autorun = false and an empty tracked
set, in a system where no pid answers the liveness probe and `pidof` prints
the line `5`. After the call pid 5 is tracked although no pid was probed in
the call (and pid 5 would fail the probe). -/
theorem guard_tracked_probed_counterexample :
    (guard (worldWith [] [53, 10]) (echosvc false)).1.pids = [5] ∧
    (guard (worldWith [] [53, 10]) (echosvc false)).2.probed = [] ∧
    ¬ (∀ p ∈ (guard (worldWith [] [53, 10]) (echosvc false)).1.pids,
        p ∈ (guard (worldWith [] [53, 10]) (echosvc false)).2.probed ∧
        (worldWith [] [53, 10]).kill p ≠ -1) := by
  decide

/-- C6, amended. After every `guard()` call every tracked pid either was
probed in that call and passed the probe, or was returned by the discovery
made in that call and is positive; the second case occurs only when every pid
probed in the call failed the probe. -/
theorem guard_tracked_probed_or_discovered (g : ProcessGuard) (w : World) (p : Int)
    (hp : p ∈ (guard w g).1.pids) :
    (p ∈ (guard w g).2.probed ∧ w.kill p ≠ -1) ∨
    ((guard w g).2.scans = 1 ∧ p ∈ getPidsByName w g.name ∧ 0 < p ∧
      ∀ q ∈ (guard w g).2.probed, w.kill q = -1) := by
  by_cases h : g.pids.filter (alive w) = []
  · by_cases hd : getPidsByName w g.name = []
    · cases hg : g.guarding
      · rw [guard_dormant w g h hd hg] at hp; simp at hp
      · rw [guard_launch w g h hd hg] at hp; simp at hp
    · rw [guard_enroll w g h hd] at hp ⊢
      exact Or.inr ⟨rfl, hp, getPidsByName_pos w g.name p hp,
        (filter_alive_eq_nil w g.pids).mp h⟩
  · rw [guard_tracking w g h] at hp ⊢
    have hp2 : p ∈ g.pids ∧ alive w p = true := by simpa [List.mem_filter] using hp
    exact Or.inl ⟨hp2.1, by simpa [alive] using hp2.2⟩

/-- C6, amended, at a concrete input: pid 5 after the adoption of the line
`5` by an entry whose tracked pid 7 is dead. -/
theorem guard_tracked_probed_or_discovered_witness :
    (5 : Int) ∈ (guard (worldWith [] [53, 10]) { echosvc false with pids := [7] }).1.pids ∧
    (((5 : Int) ∈ (guard (worldWith [] [53, 10]) { echosvc false with pids := [7] }).2.probed ∧
        (worldWith [] [53, 10]).kill 5 ≠ -1) ∨
      ((guard (worldWith [] [53, 10]) { echosvc false with pids := [7] }).2.scans = 1 ∧
        (5 : Int) ∈ getPidsByName (worldWith [] [53, 10]) "echosvc" ∧ (0 : Int) < 5 ∧
        ∀ q ∈ (guard (worldWith [] [53, 10]) { echosvc false with pids := [7] }).2.probed,
          (worldWith [] [53, 10]).kill q = -1)) :=
  ⟨by decide,
    guard_tracked_probed_or_discovered { echosvc false with pids := [7] }
      (worldWith [] [53, 10]) 5 (by decide)⟩

/-- C9. `guarding` is monotone: when it is true before a `guard()` call it is
true after it, and once it is true after some calls it is true after any
further calls, whatever the liveness and discovery answers. -/
theorem guard_guarding_never_reset (g : ProcessGuard) (w : World) (ws1 ws2 : List World)
    (h : (guardRun g ws1).guarding = true) :
    (g.guarding = true → (guard w g).1.guarding = true) ∧
    (guardRun g (ws1 ++ ws2)).guarding = true := by
  refine ⟨guard_guarding_mono w g, ?_⟩
  rw [guardRun_append]
  exact guardRun_guarding_mono _ ws2 h

/-- C9 at a concrete input: `echosvc` with autorun = false is enrolled by the
line `42` and stays guarded through two later sweeps of a quiet system. -/
theorem guard_guarding_never_reset_witness :
    (guardRun (echosvc false) [worldWith [42] [52, 50, 10]]).guarding = true ∧
    (guardRun (echosvc false)
      ([worldWith [42] [52, 50, 10]] ++ [quietWorld, quietWorld])).guarding = true :=
  ⟨by decide,
    (guard_guarding_never_reset (echosvc false) quietWorld [worldWith [42] [52, 50, 10]]
      [quietWorld, quietWorld] (by decide)).2⟩

/-- C10. In every state reached from a freshly constructed entry by any
sequence of `guard()` calls, under any liveness and discovery answers, a
non-empty tracked set implies `guarding` true. -/
theorem guard_reachable_tracked_implies_guarding (name wd cmd : String) (autoRun : Bool)
    (ws : List World)
    (h : (guardRun (ProcessGuard.new name wd cmd autoRun) ws).pids ≠ []) :
    (guardRun (ProcessGuard.new name wd cmd autoRun) ws).guarding = true :=
  guardRun_preserves_invariant (ProcessGuard.new name wd cmd autoRun) ws
    (fun hne => absurd rfl hne) h

/-- C10 at a concrete input: `echosvc` with autorun = false after a quiet
sweep and a sweep in which `pidof` prints the line `42`. -/
theorem guard_reachable_tracked_implies_guarding_witness :
    (guardRun (ProcessGuard.new "echosvc" "/tmp" "echosvc --port 9000" false)
      [quietWorld, worldWith [42] [52, 50, 10]]).pids ≠ [] ∧
    (guardRun (ProcessGuard.new "echosvc" "/tmp" "echosvc --port 9000" false)
      [quietWorld, worldWith [42] [52, 50, 10]]).guarding = true :=
  ⟨by decide,
    guard_reachable_tracked_implies_guarding "echosvc" "/tmp" "echosvc --port 9000" false
      [quietWorld, worldWith [42] [52, 50, 10]] (by decide)⟩

/-! ## The scan interval -/

/-- C8. For an `int` value `n` read from `scan_interval` the interval used by
the loop is `n` when `n ≥ 1` and `1` otherwise: `0` and `-5` give `1`, `10`
gives `10`. When the key is absent or the value cannot be read as an integer
the interval is `1`. The interval is at least `1` in every case, and it is the
number of seconds `sleep` receives. -/
theorem scanInterval_coerced (n : Int) (field : Option GetInt)
    (hlo : -(2 ^ 31) ≤ n) (hhi : n < 2 ^ 31) :
    scanInterval (some (GetInt.value n)) = (if 1 ≤ n then n else 1) ∧
    sleepSeconds (some (GetInt.value n)) = (if 1 ≤ n then n else 1) ∧
    scanInterval (some (GetInt.value 0)) = 1 ∧
    scanInterval (some (GetInt.value (-5))) = 1 ∧
    scanInterval (some (GetInt.value 10)) = 10 ∧
    scanInterval none = 1 ∧
    scanInterval (some GetInt.throws) = 1 ∧
    1 ≤ scanInterval field := by
  have h1 : scanInterval (some (GetInt.value n)) = (if 1 ≤ n then n else 1) := by
    unfold scanInterval
    by_cases h : n < 1
    · simp [h, not_le.mpr h]
    · simp [h, not_lt.mp h]
  refine ⟨h1, ?_, rfl, rfl, rfl, rfl, rfl, ?_⟩
  · unfold sleepSeconds
    rw [h1]
    by_cases h : 1 ≤ n
    · simp only [h, if_true]
      exact Int.emod_eq_of_lt (by omega) (by omega)
    · simp only [h, if_false]
      rfl
  · cases field with
    | none => simp [scanInterval]
    | some v =>
      cases v with
      | throws => simp [scanInterval]
      | value m =>
        unfold scanInterval
        by_cases h : m < 1
        · simp [h]
        · simp [h]; omega

/-- C8 at a concrete input: the value `10`. -/
theorem scanInterval_coerced_witness :
    scanInterval (some (GetInt.value 10)) = 10 ∧
    sleepSeconds (some (GetInt.value 10)) = 10 ∧
    1 ≤ scanInterval (some (GetInt.value (-5))) :=
  have h := scanInterval_coerced 10 (some (GetInt.value (-5))) (by decide) (by decide)
  ⟨h.1, h.2.1, h.2.2.2.2.2.2.2⟩

/-! ## The token loop terminates within its fuel -/

theorem strtok_rest_length (delim s tok rest : List Nat)
    (h : strtok delim s = some (tok, rest)) : rest.length < s.length := by
  unfold strtok at h
  cases hd : s.dropWhile (isDelim delim) with
  | nil => simp [hd] at h
  | cons b t =>
    have hb : ¬ isDelim delim b = true := by
      have := List.head_dropWhile_not (isDelim delim) s (by simp [hd])
      simpa [hd] using this
    have hle : (b :: t).length ≤ s.length := by
      rw [← hd]
      exact (List.dropWhile_sublist _).length_le
    simp only [hd, Option.some.injEq, Prod.mk.injEq] at h
    rw [← h.2]
    have hdrop : List.dropWhile (fun c => !isDelim delim c) (b :: t)
        = List.dropWhile (fun c => !isDelim delim c) t := by
      simp [List.dropWhile_cons, hb]
    rw [hdrop]
    have h1 : (List.dropWhile (fun c => !isDelim delim c) t).length ≤ t.length :=
      (List.dropWhile_sublist _).length_le
    simp only [List.length_drop, List.length_cons] at hle ⊢
    omega

theorem tokenLoop_fuel_enough (fuel : Nat) (s : List Nat) (result : List Int)
    (hfuel : s.length + 1 ≤ fuel) :
    (tokenLoop fuel (strtok [32] s) result).isSome = true := by
  induction fuel generalizing s result with
  | zero => omega
  | succ fuel ih =>
    cases ht : strtok [32] s with
    | none => simp [tokenLoop]
    | some t =>
      obtain ⟨token, rest⟩ := t
      simp only [tokenLoop]
      have := strtok_rest_length [32] s token rest ht
      exact ih rest _ (by omega)

theorem tokenLoop_fuel_mono (fuel extra : Nat) (tok : Option (List Nat × List Nat))
    (result out : List Int) (h : tokenLoop fuel tok result = some out) :
    tokenLoop (fuel + extra) tok result = some out := by
  induction fuel generalizing tok result with
  | zero =>
    cases tok with
    | none =>
      cases extra <;> simpa [tokenLoop] using h
    | some t => simp [tokenLoop] at h
  | succ fuel ih =>
    cases tok with
    | none => simpa [tokenLoop] using h
    | some t =>
      obtain ⟨token, rest⟩ := t
      rw [Nat.add_right_comm]
      simp only [tokenLoop] at h ⊢
      exact ih _ _ h

/-- The loop of `getPidsByName` always ends within the fuel that `parsePidof`
gives it: the result of `parsePidof` is the result of the loop. -/
theorem parsePidof_loop_result (stream read : List Nat)
    (hread : fgets 128 stream = some read) :
    tokenLoop ((cstr read).length + 1) (strtok [32] (cstr read)) []
      = some (parsePidof (some stream)) := by
  have h := tokenLoop_fuel_enough ((cstr read).length + 1) (cstr read) [] (le_refl _)
  cases ht : tokenLoop ((cstr read).length + 1) (strtok [32] (cstr read)) [] with
  | none => simp [ht] at h
  | some out => simp [parsePidof, hread, ht]

/-! ## Lines of tokens that fit into the buffer -/

theorem fgetsRead_line (n : Nat) (l tail : List Nat) (hl : ∀ b ∈ l, b ≠ 10)
    (htail : tail = [] ∨ tail = [10]) (hlen : (l ++ tail).length ≤ n) :
    fgetsRead n (l ++ tail) = l ++ tail := by
  induction l generalizing n with
  | nil =>
    rcases htail with ht | ht
    · subst ht
      cases n <;> rfl
    · subst ht
      cases n with
      | zero => simp at hlen
      | succ m => simp [fgetsRead]
  | cons b l ih =>
    cases n with
    | zero => simp at hlen
    | succ m =>
      have hb : b ≠ 10 := hl b (List.mem_cons_self _ _)
      have hlen2 : (l ++ tail).length ≤ m := by
        simp only [List.cons_append, List.length_cons] at hlen
        omega
      have ih2 := ih m (fun c hc => hl c (List.mem_cons_of_mem _ hc)) hlen2
      show fgetsRead (m + 1) (b :: (l ++ tail)) = b :: (l ++ tail)
      simp only [fgetsRead, hb, if_false, ih2]

theorem cstr_of_no_nul (l : List Nat) (h : ∀ b ∈ l, b ≠ 0) : cstr l = l := by
  unfold cstr
  rw [List.takeWhile_eq_self_iff]
  intro b hb
  simpa using h b hb

theorem isDelim_space (b : Nat) : isDelim [32] b = decide (b = 32) := by
  simp [isDelim]

theorem strtok_last (x : List Nat) (hne : x ≠ []) (h32 : ∀ b ∈ x, b ≠ 32) :
    strtok [32] x = some (x, []) := by
  cases x with
  | nil => exact absurd rfl hne
  | cons b t =>
    have hb : b ≠ 32 := h32 b (List.mem_cons_self _ _)
    have hd : List.dropWhile (isDelim [32]) (b :: t) = b :: t := by
      rw [List.dropWhile_cons_of_neg]
      simp [isDelim_space, hb]
    have hall : ∀ c ∈ b :: t, (!isDelim [32] c) = true := by
      intro c hc
      simp [isDelim_space, h32 c hc]
    have htake : List.takeWhile (fun c => !isDelim [32] c) (b :: t) = b :: t :=
      List.takeWhile_eq_self_iff.mpr hall
    have hdrop : List.dropWhile (fun c => !isDelim [32] c) (b :: t) = [] :=
      List.dropWhile_eq_nil_iff.mpr hall
    unfold strtok
    rw [hd]
    simp only [htake, hdrop, List.drop_nil]

theorem strtok_next (x rest : List Nat) (hne : x ≠ []) (h32 : ∀ b ∈ x, b ≠ 32) :
    strtok [32] (x ++ 32 :: rest) = some (x, rest) := by
  cases x with
  | nil => exact absurd rfl hne
  | cons b t =>
    have hb : b ≠ 32 := h32 b (List.mem_cons_self _ _)
    have hd : List.dropWhile (isDelim [32]) (b :: t ++ 32 :: rest) = b :: t ++ 32 :: rest := by
      rw [List.cons_append, List.dropWhile_cons_of_neg]
      simp [isDelim_space, hb]
    have hall : ∀ c ∈ b :: t, (!isDelim [32] c) = true := by
      intro c hc
      simp [isDelim_space, h32 c hc]
    have htake : List.takeWhile (fun c => !isDelim [32] c) (b :: t ++ 32 :: rest) = b :: t := by
      rw [List.takeWhile_append_of_pos hall]
      simp [isDelim_space]
    have hdrop : List.dropWhile (fun c => !isDelim [32] c) (b :: t ++ 32 :: rest)
        = 32 :: rest := by
      rw [List.dropWhile_append_of_pos hall]
      simp [isDelim_space]
    unfold strtok
    rw [hd]
    have hshape : b :: t ++ 32 :: rest = b :: (t ++ 32 :: rest) := rfl
    rw [hshape] at htake hdrop ⊢
    simp only [htake, hdrop, List.drop_succ_cons, List.drop_zero]

theorem digitsValue_digits (ds tail : List Nat) (acc : Nat) (hds : ∀ d ∈ ds, d ≤ 9)
    (htail : tail = [] ∨ tail = [10]) :
    digitsValue (ds.map (fun d => d + 48) ++ tail) acc
      = ds.foldl (fun a d => 10 * a + d) acc := by
  induction ds generalizing acc with
  | nil =>
    rcases htail with ht | ht <;> subst ht <;> simp [digitsValue, isdigit]
  | cons d ds ih =>
    have hd : d ≤ 9 := hds d (List.mem_cons_self _ _)
    have hdig : isdigit (d + 48) = true := by
      simp [isdigit]; omega
    simp only [List.map_cons, List.cons_append, digitsValue, hdig, if_true,
      List.foldl_cons, Nat.add_sub_cancel]
    exact ih _ (fun c hc => hds c (List.mem_cons_of_mem _ hc))

theorem toInt32_of_range (v : Int) (hlo : -(2 ^ 31) ≤ v) (hhi : v < 2 ^ 31) :
    toInt32 v = v := by
  unfold toInt32
  rw [Int.emod_eq_of_lt (by omega) (by omega)]
  omega

theorem atoi_token (t : DecToken) (tail : List Nat) (hwf : t.wellFormed)
    (hlo : -(2 ^ 31) ≤ t.value) (hhi : t.value < 2 ^ 31)
    (htail : tail = [] ∨ tail = [10]) :
    atoi (t.bytes ++ tail) = t.value := by
  obtain ⟨hne, hds⟩ := hwf
  have hv : strtol (t.bytes ++ tail) = t.value := by
    have hraw : (match (t.bytes ++ tail).dropWhile isspace with
        | [] => (0 : Int)
        | c :: r =>
          if c = 45 then -((digitsValue r 0 : Nat) : Int)
          else if c = 43 then ((digitsValue r 0 : Nat) : Int)
          else ((digitsValue (c :: r) 0 : Nat) : Int)) = t.value := by
      cases hneg : t.neg with
      | true =>
        have hb : t.bytes ++ tail = 45 :: (t.digits.map (fun d => d + 48) ++ tail) := by
          simp [DecToken.bytes, hneg]
        rw [hb, List.dropWhile_cons_of_neg (by simp [isspace])]
        simp only [if_true]
        rw [digitsValue_digits _ _ _ hds htail]
        simp [DecToken.value, hneg]
      | false =>
        cases hdig : t.digits with
        | nil => exact absurd hdig hne
        | cons d ds =>
          have hd : d ≤ 9 := hds d (by rw [hdig]; exact List.mem_cons_self _ _)
          have hb : t.bytes ++ tail
              = (d + 48) :: ((ds.map (fun d => d + 48)) ++ tail) := by
            simp [DecToken.bytes, hneg, hdig]
          have hsp : ¬ isspace (d + 48) = true := by
            simp [isspace]
          rw [hb, List.dropWhile_cons_of_neg hsp]
          have h45 : ¬ d + 48 = 45 := by omega
          have h43 : ¬ d + 48 = 43 := by omega
          simp only [h45, h43, if_false]
          have := digitsValue_digits (d :: ds) tail 0 (by rw [← hdig]; exact hds) htail
          simp only [List.map_cons, List.cons_append] at this
          rw [this]
          simp [DecToken.value, hneg, hdig]
    unfold strtol
    simp only [hraw]
    have h1 : ¬ t.value < -(2 ^ 63) := by omega
    have h2 : ¬ (2 ^ 63 - 1 < t.value) := by omega
    simp only [h1, h2, if_false]
  unfold atoi
  rw [hv]
  exact toInt32_of_range _ hlo hhi

theorem bytes_ne_nil (t : DecToken) (hwf : t.wellFormed) : t.bytes ≠ [] := by
  obtain ⟨hne, _⟩ := hwf
  cases hdig : t.digits with
  | nil => exact absurd hdig hne
  | cons d ds => simp [DecToken.bytes, hdig]

theorem bytes_mem (t : DecToken) (hwf : t.wellFormed) :
    ∀ b ∈ t.bytes, b = 45 ∨ (48 ≤ b ∧ b ≤ 57) := by
  obtain ⟨_, hds⟩ := hwf
  intro b hb
  simp only [DecToken.bytes, List.mem_append, List.mem_map] at hb
  rcases hb with hb | ⟨d, hd, rfl⟩
  · cases hneg : t.neg
    · simp [hneg] at hb
    · simp [hneg] at hb
      exact Or.inl hb
  · have := hds d hd
    exact Or.inr ⟨by omega, by omega⟩

theorem joinTokens_mem (toks : List DecToken) (hwf : ∀ t ∈ toks, t.wellFormed) :
    ∀ b ∈ joinTokens toks, b = 45 ∨ b = 32 ∨ (48 ≤ b ∧ b ≤ 57) := by
  induction toks with
  | nil => intro b hb; simp [joinTokens] at hb
  | cons t ts ih =>
    have ht := bytes_mem t (hwf t (List.mem_cons_self _ _))
    have hrest := ih (fun u hu => hwf u (List.mem_cons_of_mem _ hu))
    cases ts with
    | nil =>
      intro b hb
      simp only [joinTokens] at hb
      rcases ht b hb with h | h
      · exact Or.inl h
      · exact Or.inr (Or.inr h)
    | cons t2 ts2 =>
      intro b hb
      simp only [joinTokens, List.mem_append, List.mem_cons] at hb
      rcases hb with hb | hb | hb
      · rcases ht b hb with h | h
        · exact Or.inl h
        · exact Or.inr (Or.inr h)
      · exact Or.inr (Or.inl hb)
      · exact hrest b hb

theorem positiveValues_cons (t : DecToken) (ts : List DecToken) :
    positiveValues (t :: ts)
      = (if t.value > 0 then [t.value] else []) ++ positiveValues ts := by
  unfold positiveValues
  by_cases h : t.value > 0
  · simp [h, List.filter_cons]
  · simp [h, List.filter_cons]

/-- The token loop on a line of well-formed tokens whose values fit an `int`:
one round per token, and the result is extended by the positive values. -/
theorem tokenLoop_tokens (toks : List DecToken) (tail : List Nat) (result : List Int)
    (hne : toks ≠ [])
    (hwf : ∀ t ∈ toks, t.wellFormed)
    (hrange : ∀ t ∈ toks, -(2 ^ 31) ≤ t.value ∧ t.value < 2 ^ 31)
    (htail : tail = [] ∨ tail = [10]) :
    tokenLoop toks.length (strtok [32] (joinTokens toks ++ tail)) result
      = some (result ++ positiveValues toks) := by
  induction toks generalizing result with
  | nil => exact absurd rfl hne
  | cons t ts ih =>
    have hwt := hwf t (List.mem_cons_self _ _)
    have hrt := hrange t (List.mem_cons_self _ _)
    have hb32 : ∀ b ∈ t.bytes, b ≠ 32 := by
      intro b hb
      rcases bytes_mem t hwt b hb with h | h <;> omega
    cases ts with
    | nil =>
      have hx : ∀ b ∈ t.bytes ++ tail, b ≠ 32 := by
        intro b hb
        rcases List.mem_append.mp hb with h | h
        · exact hb32 b h
        · rcases htail with ht | ht <;> subst ht <;> simp at h
          omega
      have hxne : t.bytes ++ tail ≠ [] := by
        intro h
        exact bytes_ne_nil t hwt (List.append_eq_nil.mp h).1
      have hnone : strtok [32] [] = none := by simp [strtok]
      simp only [joinTokens, List.length_singleton]
      rw [strtok_last _ hxne hx]
      simp only [tokenLoop, hnone, atoi_token t tail hwt hrt.1 hrt.2 htail]
      rw [positiveValues_cons]
      by_cases hpos : t.value > 0
      · simp [hpos, positiveValues]
      · simp [hpos, positiveValues]
    | cons t2 ts2 =>
      have hshape : joinTokens (t :: t2 :: ts2) ++ tail
          = t.bytes ++ 32 :: (joinTokens (t2 :: ts2) ++ tail) := by
        simp [joinTokens]
      have hat : atoi t.bytes = t.value := by
        have := atoi_token t [] hwt hrt.1 hrt.2 (Or.inl rfl)
        simpa using this
      rw [hshape, strtok_next _ _ (bytes_ne_nil t hwt) hb32]
      simp only [List.length_cons, tokenLoop, hat]
      have ih2 := ih (if t.value > 0 then result ++ [t.value] else result)
        (by simp)
        (fun u hu => hwf u (List.mem_cons_of_mem _ hu))
        (fun u hu => hrange u (List.mem_cons_of_mem _ hu))
      simp only [List.length_cons] at ih2
      rw [ih2, positiveValues_cons t]
      by_cases hpos : t.value > 0
      · simp [hpos]
      · simp [hpos]

/-- The discovery contract holds on every line that fits into the buffer of
`getPidsByName`: for well-formed tokens separated by one space, with values
in the range of `int`, on a line of at most 127 bytes (newline included),
`parsePidof` returns exactly the values greater than zero, in order,
duplicates kept. -/
theorem parsePidof_line_within_buffer (toks : List DecToken) (newline : Bool)
    (hwf : ∀ t ∈ toks, t.wellFormed)
    (hrange : ∀ t ∈ toks, -(2 ^ 31) ≤ t.value ∧ t.value < 2 ^ 31)
    (hlen : (pidofLine toks newline).length ≤ 127) :
    parsePidof (some (pidofLine toks newline)) = positiveValues toks := by
  cases toks with
  | nil => cases newline <;> decide
  | cons t ts =>
    have htail : (if newline then [10] else []) = ([] : List Nat) ∨
        (if newline then [10] else []) = [10] := by
      cases newline <;> simp
    have hbytes := joinTokens_mem (t :: ts) hwf
    have hne : pidofLine (t :: ts) newline ≠ [] := by
      intro h
      have h1 : joinTokens (t :: ts) = [] := (List.append_eq_nil.mp h).1
      have h2 := bytes_ne_nil t (hwf t (List.mem_cons_self _ _))
      cases ts with
      | nil => exact h2 h1
      | cons t2 ts2 =>
        simp [joinTokens] at h1
    have hread : fgets 128 (pidofLine (t :: ts) newline)
        = some (pidofLine (t :: ts) newline) := by
      have h10 : ∀ b ∈ joinTokens (t :: ts), b ≠ 10 := by
        intro b hb
        rcases hbytes b hb with h | h | h <;> omega
      have := fgetsRead_line 127 (joinTokens (t :: ts)) _ h10 htail hlen
      cases hl : pidofLine (t :: ts) newline with
      | nil => exact absurd hl hne
      | cons b l =>
        unfold pidofLine at hl
        rw [hl] at this
        simp only [fgets, Nat.add_one_sub_one]
        rw [this]
    have hnul : ∀ b ∈ pidofLine (t :: ts) newline, b ≠ 0 := by
      intro b hb
      rcases List.mem_append.mp hb with h | h
      · rcases hbytes b h with h | h | h <;> omega
      · rcases htail with ht | ht <;> rw [ht] at h <;> simp at h
        omega
    have hloop := parsePidof_loop_result _ _ hread
    rw [cstr_of_no_nul _ hnul] at hloop
    have htok := tokenLoop_tokens (t :: ts) _ [] (by simp) hwf hrange htail
    have e1 := tokenLoop_fuel_mono _ (t :: ts).length _ _ _ hloop
    have e2 := tokenLoop_fuel_mono _ ((pidofLine (t :: ts) newline).length + 1) _ _ _ htok
    rw [Nat.add_comm] at e2
    have e3 := e1.symm.trans e2
    simpa using e3

/-- The discovery contract within the buffer, at a concrete input: the line
`12345 -7 0 42` ended by a newline gives the pids 12345 and 42. -/
theorem parsePidof_line_within_buffer_example :
    parsePidof (some (pidofLine
      [tok12345, { neg := true, digits := [7] }, { neg := false, digits := [0] },
        { neg := false, digits := [4, 2] }] true)) = [12345, 42] :=
  (parsePidof_line_within_buffer
    [tok12345, { neg := true, digits := [7] }, { neg := false, digits := [0] },
      { neg := false, digits := [4, 2] }] true
    (by decide) (by decide) (by decide)).trans (by decide)

/-- An empty output and a failed `popen` both give the empty list. -/
theorem parsePidof_nothing : parsePidof none = [] ∧ parsePidof (some []) = [] :=
  ⟨rfl, rfl⟩

set_option maxRecDepth 100000 in
/-- C7 at the failing input: a line of 22 tokens `12345` separated by one
space and ended by a newline, 132 bytes. `fgets` stores the first 127 bytes,
so `getPidsByName` returns 21 times the pid 12345 followed by the pid 1, the
first digit of the token that was cut; the values of the tokens are 22 times
12345. -/
theorem getPidsByName_long_line_truncated :
    (pidofLine (List.replicate 22 tok12345) true).length = 132 ∧
    positiveValues (List.replicate 22 tok12345) = List.replicate 22 12345 ∧
    getPidsByName (worldWith [] (pidofLine (List.replicate 22 tok12345) true)) "echosvc"
      = List.replicate 21 12345 ++ [1] ∧
    getPidsByName (worldWith [] (pidofLine (List.replicate 22 tok12345) true)) "echosvc"
      ≠ positiveValues (List.replicate 22 tok12345) := by
  decide

end PGuard
